import Mathlib

/-!
Verification of the zstate enumeration engine of `blore/inference/zstatespy.py`.

The module builds, for a locus of `nsnps` SNPs, the list of "zstates": each
zstate is the sorted list of positions of causal SNPs.  `create` initialises
levels 0 and 1, then repeatedly selects high-scoring leader states, expands
them into deduplicated states of the next norm, and stops by a probability-mass
rule.  Scores come from the external collaborator
`quasi_laplace.margloglik_zcomps`, abstracted here as a `Scorer` parameter.
Machine floats are modelled by exact rationals.
-/

namespace BLore

/-- A zstate: the sorted list of causal-SNP column positions of one row of the
sparse indicator matrix (`zstatespy.py` represents a row `[1 0 0 1]` as `[0,3]`). -/
abbrev State := List Nat

/-- The external scorer `quasi_laplace.margloglik_zcomps`, abstracted as a pure
function from the current collection of states to one score per state; the
hyperparameters `pi, mu, sig2, vmin, mureg, sigreg2, precll` are folded into it. -/
abbrev Scorer := List State → List ℚ

/-- The runtime failure `create` can raise: the Python `IndexError` from the
leader extraction `oldk[sel[i]]`. -/
inductive Err where
  | indexError
deriving DecidableEq

/-- The loop-carried variables of the `while` loop in `create`. -/
structure St where
  zstates : List State
  oldk : List State
  prob : List ℚ
  probsum : ℚ
  old_probsum : ℚ
  calls : Nat
deriving DecidableEq

/-- Python slice `posterior[-m:]`: the last `m` entries, except that for
`m = 0` the slice `[-0:]` is the whole list. -/
def lastSlice (posterior : List ℚ) (m : Nat) : List ℚ :=
  if m = 0 then posterior else posterior.drop (posterior.length - m)

/-- Score of index `i` in the active score vector, `prob[i]` (0 out of range;
in `create` the index is always in range). -/
def probOf (prob : List ℚ) (i : Nat) : ℚ := prob.getD i 0

/-- `np.argsort(prob)[::-1]`: indices of `prob` ordered by decreasing score
(ties keep increasing index order, via the stable insertion sort). -/
def argsortDesc (prob : List ℚ) : List Nat :=
  @List.insertionSort Nat (fun i j => probOf prob j ≤ probOf prob i)
    (fun i j => inferInstanceAs (Decidable (probOf prob j ≤ probOf prob i)))
    (List.range prob.length)

/-- The scores rearranged into decreasing order, `prob[sort]`. -/
def sortedScores (prob : List ℚ) : List ℚ := (argsortDesc prob).map (probOf prob)

/-- `np.cumsum`: running cumulative sums. -/
def cumsum : List ℚ → List ℚ
  | [] => []
  | x :: xs => x :: (cumsum xs).map (fun c => x + c)

/-- `np.where(cum > targ)[0][0]`: the first position whose entry strictly
exceeds `targ`, if any. -/
def firstExceed (targ : ℚ) : List ℚ → Option Nat
  | [] => none
  | c :: cs => if targ < c then some 0 else (firstExceed targ cs).map (fun i => i + 1)

/-- The selection step of `create`: sort scores decreasingly, find the first
prefix of the cumulative sums exceeding `targ`, keep that many top indices and
re-sort them into ascending order (`sel = np.sort(sort[:nsel])`); `none` when
no prefix exceeds `targ`. -/
def selectIdx (prob : List ℚ) (targ : ℚ) : Option (List Nat) :=
  match firstExceed targ (cumsum (sortedScores prob)) with
  | none => none
  | some idx => some (List.insertionSort (· ≤ ·) ((argsortDesc prob).take (idx + 1)))

/-- All raw leader-extension candidates, in generation order: for each leader in
turn, for each item of the universe not already in it, the canonical (sorted)
state obtained by inserting the item into the leader. -/
def candidates (nsnps : Nat) : List State → List State
  | [] => []
  | l :: ls =>
      ((List.range nsnps).filter (fun i => decide (i ∉ l))).map
        (fun i => List.orderedInsert (· ≤ ·) i l) ++ candidates nsnps ls

/-- Drop repeated states, keeping the first occurrence of each (`acc` holds the
states already emitted). -/
def dedupGo : List State → List State → List State
  | acc, [] => acc
  | acc, x :: xs => if x ∈ acc then dedupGo acc xs else dedupGo (acc ++ [x]) xs

/-- Deduplicate a candidate list, keeping first occurrences in order. -/
def dedupFirst (l : List State) : List State := dedupGo [] l

/-- Modelled from the spec: the native expansion helper `lib/zstates.so`
(`create_zstates`, loaded with `np.ctypeslib.load_library`) is absent from the
sources; per the spec it must emit, for the given leaders, each distinct
candidate (a leader with one item of `[0, nsnps)` not already in it inserted) exactly
once, canonically sorted, in generation order. -/
def expand (nsnps : Nat) (leaders : List State) : List State :=
  dedupFirst (candidates nsnps leaders)

/-- Concatenation of a list of levels. -/
def flat : List (List State) → List State
  | [] => []
  | l :: ls => l ++ flat ls

/-- The `while norm < cmax` loop of `create`, with the iteration count made
structural (`fuel`); `create` passes `fuel = cmax - 1`, which the guard
`norm < cmax` exhausts exactly when the fuel does.  Each iteration: stopping
check, selection, bounds-checked leader extraction (Python raises `IndexError`
out of range), deduplicated expansion, append, re-score. -/
def loop (score : Scorer) (nsnps : Nat) (target : ℚ) (cmax : Nat) :
    Nat → Nat → St → Except Err St
  | 0, _, s => .ok s
  | fuel + 1, norm, s =>
    if norm < cmax then
      if s.probsum < (1 - target) * s.old_probsum then .ok s
      else
        match selectIdx s.prob (s.probsum * target) with
        | none => .ok s
        | some sel =>
          if sel.all (fun i => decide (i < s.oldk.length)) then
            let leadk := sel.map (fun i => s.oldk.getD i [])
            let newk := expand nsnps leadk
            let zstates := s.zstates ++ newk
            let posterior := score zstates
            let prob := lastSlice posterior newk.length
            loop score nsnps target cmax fuel (norm + 1)
              ⟨zstates, newk, prob, prob.sum, s.probsum, s.calls + 1⟩
          else .error .indexError
    else .ok s

/-- `create` of `zstatespy.py`.  Besides the produced zstate collection it also
returns the number of Scorer invocations made (the Python code's calls to
`quasi_laplace.margloglik_zcomps`), so that the "no scoring call" contracts are
statable. -/
def create (score : Scorer) (nsnps cmax : Nat) (target : ℚ) (is_covariate : Bool) :
    Except Err (List State × Nat) :=
  if is_covariate then
    .ok ([List.range nsnps], 0)
  else
    let newk : List State := (List.range nsnps).map (fun i => [i])
    let zstates : List State := [] :: newk
    if 1 < cmax then
      let posterior := score zstates
      let prob := lastSlice posterior newk.length
      let probsum := prob.sum
      let old_probsum := posterior.headD 0
      (loop score nsnps target cmax (cmax - 1) 1
        ⟨zstates, newk, prob, probsum, old_probsum, 1⟩).map (fun s => (s.zstates, s.calls))
    else
      .ok (zstates, 0)

/-- Decidable equality of run results, for evaluating `create` on concrete
inputs inside proofs. -/
instance instDecEqExcept {ε α : Type} [DecidableEq ε] [DecidableEq α] :
    DecidableEq (Except ε α) := fun a b =>
  match a, b with
  | .ok x, .ok y => decidable_of_iff (x = y) (by simp)
  | .ok _, .error _ => isFalse (fun h => by injection h)
  | .error _, .ok _ => isFalse (fun h => by injection h)
  | .error x, .error y => decidable_of_iff (x = y) (by simp)

attribute [local semireducible] Rat.add Rat.mul Rat.sub Rat.inv Rat.ofScientific

/-- Well-formedness of a level: every state is canonical (strictly increasing),
drawn from the universe `[0, nsnps)`, and of the given norm `m`. -/
def GoodStates (nsnps m : Nat) (ks : List State) : Prop :=
  ∀ l ∈ ks, l.Sorted (· < ·) ∧ (∀ i ∈ l, i < nsnps) ∧ l.length = m

theorem mem_dedupGo (x : State) :
    ∀ (l acc : List State), x ∈ dedupGo acc l ↔ x ∈ acc ∨ x ∈ l := by
  intro l
  induction l with
  | nil => intro acc; simp [dedupGo]
  | cons y ys ih =>
    intro acc
    rw [dedupGo]
    by_cases hy : y ∈ acc
    · rw [if_pos hy, ih]
      constructor
      · rintro (h | h)
        · exact Or.inl h
        · exact Or.inr (List.mem_cons_of_mem _ h)
      · rintro (h | h)
        · exact Or.inl h
        · rcases List.mem_cons.mp h with rfl | h
          · exact Or.inl hy
          · exact Or.inr h
    · rw [if_neg hy, ih]
      simp only [List.mem_append, List.mem_singleton, List.mem_cons]
      tauto

theorem nodup_dedupGo :
    ∀ (l acc : List State), acc.Nodup → (dedupGo acc l).Nodup := by
  intro l
  induction l with
  | nil => intro acc h; exact h
  | cons y ys ih =>
    intro acc h
    rw [dedupGo]
    by_cases hy : y ∈ acc
    · rw [if_pos hy]; exact ih acc h
    · rw [if_neg hy]
      refine ih (acc ++ [y]) (List.nodup_append.mpr ⟨h, List.nodup_singleton y, ?_⟩)
      intro a ha hay
      rcases List.mem_singleton.mp hay with rfl
      exact hy ha

theorem mem_candidates (nsnps : Nat) (c : State) :
    ∀ leaders, c ∈ candidates nsnps leaders ↔
      ∃ l ∈ leaders, ∃ item, item < nsnps ∧ item ∉ l ∧
        c = List.orderedInsert (· ≤ ·) item l := by
  intro leaders
  induction leaders with
  | nil => simp [candidates]
  | cons l ls ih =>
    rw [candidates, List.mem_append, ih]
    simp only [List.mem_map, List.mem_filter, List.mem_range, decide_eq_true_eq,
      List.mem_cons]
    constructor
    · rintro (⟨i, ⟨hir, hinl⟩, rfl⟩ | ⟨l', hl', item, h1, h2, h3⟩)
      · exact ⟨l, Or.inl rfl, i, hir, hinl, rfl⟩
      · exact ⟨l', Or.inr hl', item, h1, h2, h3⟩
    · rintro ⟨l', hl' | hl', item, h1, h2, h3⟩
      · subst hl'; exact Or.inl ⟨item, ⟨h1, h2⟩, h3.symm⟩
      · exact Or.inr ⟨l', hl', item, h1, h2, h3⟩

theorem mem_expand (nsnps : Nat) (leaders : List State) (c : State) :
    c ∈ expand nsnps leaders ↔
      ∃ l ∈ leaders, ∃ item, item < nsnps ∧ item ∉ l ∧
        c = List.orderedInsert (· ≤ ·) item l := by
  rw [expand, dedupFirst, mem_dedupGo, mem_candidates]
  simp

theorem nodup_expand (nsnps : Nat) (leaders : List State) :
    (expand nsnps leaders).Nodup :=
  nodup_dedupGo _ [] List.nodup_nil

theorem orderedInsert_sorted_lt {l : List Nat} {item : Nat}
    (hs : l.Sorted (· < ·)) (hni : item ∉ l) :
    (List.orderedInsert (· ≤ ·) item l).Sorted (· < ·) := by
  have hperm := List.perm_orderedInsert (· ≤ ·) item l
  have hnd : (List.orderedInsert (· ≤ ·) item l).Nodup :=
    hperm.nodup_iff.mpr (List.nodup_cons.mpr ⟨hni, hs.nodup⟩)
  have hle : (List.orderedInsert (· ≤ ·) item l).Sorted (· ≤ ·) :=
    List.Sorted.orderedInsert item l hs.le_of_lt
  exact hle.lt_of_le hnd

theorem expand_good {nsnps m : Nat} {leaders : List State}
    (hl : GoodStates nsnps m leaders) :
    GoodStates nsnps (m + 1) (expand nsnps leaders) := by
  intro c hc
  rcases (mem_expand nsnps leaders c).mp hc with ⟨l, hlm, item, hlt, hni, rfl⟩
  rcases hl l hlm with ⟨hsort, hbound, hlen⟩
  refine ⟨orderedInsert_sorted_lt hsort hni, ?_, ?_⟩
  · intro i hi
    rcases (List.mem_orderedInsert _).mp hi with rfl | hi
    · exact hlt
    · exact hbound i hi
  · rw [List.orderedInsert_length, hlen]

theorem sorted_lt_ext {c₁ c₂ : List Nat} (h₁ : c₁.Sorted (· < ·))
    (h₂ : c₂.Sorted (· < ·)) (hm : ∀ x, x ∈ c₁ ↔ x ∈ c₂) : c₁ = c₂ := by
  have hp : c₁.Perm c₂ := (List.perm_ext_iff_of_nodup h₁.nodup h₂.nodup).mpr hm
  exact List.eq_of_perm_of_sorted hp h₁.le_of_lt h₂.le_of_lt

/-- C1: for a fixed set of canonical norm-`m` leaders over the universe
`[0, nsnps)`, the expansion step emits exactly the mathematical set of unions
of a leader with one universe item outside it — norm-`(m+1)` states, each
emitted state canonical (strictly increasing), and each distinct resulting set
appearing exactly once (no duplicate lists, and set-equal outputs are
list-equal). -/
theorem claim1 (nsnps m : Nat) (leaders : List State)
    (hl : GoodStates nsnps m leaders) :
    (∀ c, c ∈ expand nsnps leaders ↔
        ∃ l ∈ leaders, ∃ item, item < nsnps ∧ item ∉ l ∧
          c = List.orderedInsert (· ≤ ·) item l)
    ∧ (∀ (l : State) (item x : Nat),
        x ∈ List.orderedInsert (· ≤ ·) item l ↔ x = item ∨ x ∈ l)
    ∧ (expand nsnps leaders).Nodup
    ∧ (∀ c ∈ expand nsnps leaders, c.Sorted (· < ·) ∧ c.length = m + 1)
    ∧ (∀ c₁ ∈ expand nsnps leaders, ∀ c₂ ∈ expand nsnps leaders,
        (∀ x, x ∈ c₁ ↔ x ∈ c₂) → c₁ = c₂) := by
  refine ⟨mem_expand nsnps leaders, fun l item x => List.mem_orderedInsert _,
    nodup_expand nsnps leaders, ?_, ?_⟩
  · intro c hc
    rcases expand_good hl c hc with ⟨h1, _, h3⟩
    exact ⟨h1, h3⟩
  · intro c₁ hc₁ c₂ hc₂ hm
    exact sorted_lt_ext (expand_good hl c₁ hc₁).1 (expand_good hl c₂ hc₂).1 hm

/-- Witness for C1 at `nsnps = 2`, leaders `[[0], [1]]`: both leader/item pairs
produce the single candidate `[0, 1]`, emitted once. -/
theorem claim1_witness :
    GoodStates 2 1 [[0], [1]]
    ∧ ((∀ c, c ∈ expand 2 [[0], [1]] ↔
        ∃ l ∈ [[0], [1]], ∃ item, item < 2 ∧ item ∉ l ∧
          c = List.orderedInsert (· ≤ ·) item l)
    ∧ (∀ (l : State) (item x : Nat),
        x ∈ List.orderedInsert (· ≤ ·) item l ↔ x = item ∨ x ∈ l)
    ∧ (expand 2 [[0], [1]]).Nodup
    ∧ (∀ c ∈ expand 2 [[0], [1]], c.Sorted (· < ·) ∧ c.length = 1 + 1)
    ∧ (∀ c₁ ∈ expand 2 [[0], [1]], ∀ c₂ ∈ expand 2 [[0], [1]],
        (∀ x, x ∈ c₁ ↔ x ∈ c₂) → c₁ = c₂)) :=
  ⟨by unfold GoodStates; decide, claim1 2 1 [[0], [1]] (by unfold GoodStates; decide)⟩

/-- C6: for a covariate locus `create` performs no search and no Scorer call,
returning the single state containing all items `[0, nsnps)`; for `nsnps = 5`
the result is exactly `[[0, 1, 2, 3, 4]]`. -/
theorem claim6 :
    (∀ (score : Scorer) (nsnps cmax : Nat) (target : ℚ),
      create score nsnps cmax target true = .ok ([List.range nsnps], 0))
    ∧ ∀ (score : Scorer) (cmax : Nat) (target : ℚ),
      create score 5 cmax target true = .ok ([[0, 1, 2, 3, 4]], 0) :=
  ⟨fun _ _ _ _ => rfl, fun _ _ _ => rfl⟩

theorem cumsum_length : ∀ l : List ℚ, (cumsum l).length = l.length
  | [] => rfl
  | x :: xs => by rw [cumsum]; simp [cumsum_length xs]

theorem cumsum_getD : ∀ (l : List ℚ) (i : Nat), i < l.length →
    (cumsum l).getD i 0 = (l.take (i + 1)).sum := by
  intro l
  induction l with
  | nil => intro i hi; simp at hi
  | cons x xs ih =>
    intro i hi
    cases i with
    | zero => simp [cumsum]
    | succ n =>
      have hn : n < xs.length := by simpa using hi
      have hlen : n < ((cumsum xs).map (fun c => x + c)).length := by
        simp [cumsum_length]; exact hn
      rw [cumsum, List.getD_cons_succ, List.getD_eq_getElem _ _ hlen,
        List.getElem_map, ← List.getD_eq_getElem _ 0 (by rw [cumsum_length]; exact hn),
        ih n hn, List.take_succ_cons, List.sum_cons]

theorem mem_cumsum {l : List ℚ} {c : ℚ} (h : c ∈ cumsum l) :
    ∃ n, c = (l.take (n + 1)).sum := by
  rcases List.mem_iff_getElem.mp h with ⟨i, hi, hget⟩
  have hil : i < l.length := by rw [← cumsum_length l]; exact hi
  exact ⟨i, by rw [← hget, ← List.getD_eq_getElem _ 0 hi, cumsum_getD l i hil]⟩

theorem firstExceed_some {targ : ℚ} : ∀ {cs : List ℚ} {idx : Nat},
    firstExceed targ cs = some idx →
    idx < cs.length ∧ targ < cs.getD idx 0 ∧ ∀ j < idx, cs.getD j 0 ≤ targ := by
  intro cs
  induction cs with
  | nil => intro idx h; simp [firstExceed] at h
  | cons c cs ih =>
    intro idx h
    rw [firstExceed] at h
    by_cases hc : targ < c
    · rw [if_pos hc] at h
      cases h
      exact ⟨by simp, by simpa using hc, by omega⟩
    · rw [if_neg hc] at h
      cases hfe : firstExceed targ cs with
      | none => rw [hfe] at h; simp at h
      | some i =>
        rw [hfe] at h
        simp at h
        subst h
        rcases ih hfe with ⟨h1, h2, h3⟩
        refine ⟨by simpa using h1, by simpa using h2, ?_⟩
        intro j hj
        cases j with
        | zero => simpa using le_of_not_lt hc
        | succ k =>
          rw [List.getD_cons_succ]
          exact h3 k (by omega)

theorem firstExceed_none {targ : ℚ} :
    ∀ {cs : List ℚ}, (∀ c ∈ cs, c ≤ targ) → firstExceed targ cs = none := by
  intro cs
  induction cs with
  | nil => intro _; rfl
  | cons c cs ih =>
    intro h
    rw [firstExceed, if_neg (not_lt.mpr (h c (List.mem_cons_self c cs))),
      ih (fun x hx => h x (List.mem_cons_of_mem c hx))]
    rfl

theorem argsortDesc_perm (prob : List ℚ) :
    (argsortDesc prob).Perm (List.range prob.length) :=
  List.perm_insertionSort _ _

theorem argsortDesc_length (prob : List ℚ) :
    (argsortDesc prob).length = prob.length := by
  rw [(argsortDesc_perm prob).length_eq, List.length_range]

theorem mem_argsortDesc {prob : List ℚ} {i : Nat} (h : i ∈ argsortDesc prob) :
    i < prob.length := by
  have := (argsortDesc_perm prob).mem_iff.mp h
  simpa using this

theorem map_probOf_range (l : List ℚ) :
    (List.range l.length).map (probOf l) = l := by
  apply List.ext_getElem
  · simp
  · intro i h1 h2
    simp only [List.getElem_map, List.getElem_range, probOf]
    exact List.getD_eq_getElem l 0 h2

theorem sortedScores_perm (prob : List ℚ) : (sortedScores prob).Perm prob := by
  have h1 : (sortedScores prob).Perm ((List.range prob.length).map (probOf prob)) :=
    (argsortDesc_perm prob).map _
  rwa [map_probOf_range] at h1

theorem sortedScores_length (prob : List ℚ) :
    (sortedScores prob).length = prob.length :=
  (sortedScores_perm prob).length_eq

theorem take_sum_le {l : List ℚ} (h : ∀ q ∈ l, 0 ≤ q) (n : Nat) :
    (l.take n).sum ≤ l.sum := by
  conv_rhs => rw [← List.take_append_drop n l]
  rw [List.sum_append]
  have hd : 0 ≤ (l.drop n).sum :=
    List.sum_nonneg (fun q hq => h q (List.mem_of_mem_drop hq))
  linarith

theorem selectIdx_some {prob : List ℚ} {targ : ℚ} {sel : List Nat}
    (h : selectIdx prob targ = some sel) :
    ∃ idx, firstExceed targ (cumsum (sortedScores prob)) = some idx ∧
      sel = List.insertionSort (· ≤ ·) ((argsortDesc prob).take (idx + 1)) := by
  unfold selectIdx at h
  cases hfe : firstExceed targ (cumsum (sortedScores prob)) with
  | none => rw [hfe] at h; exact absurd h (by simp)
  | some idx =>
    rw [hfe] at h
    exact ⟨idx, rfl, (Option.some.injEq _ _ ▸ h).symm⟩

/-- C3: when the selection step returns `sel`, `nsel = sel.length` is the
smallest (nonempty) prefix length of the decreasing-sorted scores whose
cumulative sum strictly exceeds `targ`, and `sel` — the selected indices
re-sorted into ascending original-index order — is a permutation of the first
`nsel` indices of the decreasing sort, so the re-sorting changes only the
presentation order of the leaders, never which states are selected. -/
theorem claim3 (prob : List ℚ) (targ : ℚ) (sel : List Nat)
    (h : selectIdx prob targ = some sel) :
    1 ≤ sel.length
    ∧ targ < ((sortedScores prob).take sel.length).sum
    ∧ (∀ m, 1 ≤ m → m < sel.length → ((sortedScores prob).take m).sum ≤ targ)
    ∧ sel.Perm ((argsortDesc prob).take sel.length) := by
  rcases selectIdx_some h with ⟨idx, hfe, rfl⟩
  rcases firstExceed_some hfe with ⟨hlt, hgt, hle⟩
  have hidx : idx < prob.length := by
    rw [cumsum_length, sortedScores_length] at hlt
    exact hlt
  have hlength :
      (List.insertionSort (· ≤ ·) ((argsortDesc prob).take (idx + 1))).length
        = idx + 1 := by
    rw [List.length_insertionSort, List.length_take, argsortDesc_length]
    omega
  rw [hlength]
  have hss : idx < (sortedScores prob).length := by
    rw [sortedScores_length]; exact hidx
  refine ⟨by omega, ?_, ?_, ?_⟩
  · rw [← cumsum_getD _ idx hss]
    exact hgt
  · intro m hm1 hm2
    obtain ⟨j, rfl⟩ : ∃ j, m = j + 1 := ⟨m - 1, by omega⟩
    rw [← cumsum_getD _ j (by omega)]
    exact hle j (by omega)
  · exact List.perm_insertionSort _ _

/-- Witness for C3 at `prob = [1, 2]`, `targ = 2`: the decreasing sort is
`[2, 1]` (indices `[1, 0]`), both entries are needed to exceed `2`, and the
ascending re-sorted selection `[0, 1]` is a permutation of `[1, 0]`. -/
theorem claim3_witness :
    selectIdx [1, 2] 2 = some [0, 1]
    ∧ (1 ≤ ([0, 1] : List Nat).length
    ∧ (2 : ℚ) < ((sortedScores [1, 2]).take ([0, 1] : List Nat).length).sum
    ∧ (∀ m, 1 ≤ m → m < ([0, 1] : List Nat).length →
        ((sortedScores [1, 2]).take m).sum ≤ 2)
    ∧ ([0, 1] : List Nat).Perm ((argsortDesc [1, 2]).take ([0, 1] : List Nat).length)) :=
  ⟨by decide, claim3 [1, 2] 2 [0, 1] (by decide)⟩

theorem loop_zero (score : Scorer) (nsnps : Nat) (target : ℚ) (cmax norm : Nat) (s : St) :
    loop score nsnps target cmax 0 norm s = .ok s := rfl

theorem loop_succ (score : Scorer) (nsnps : Nat) (target : ℚ) (cmax fuel norm : Nat) (s : St) :
    loop score nsnps target cmax (fuel + 1) norm s =
      if norm < cmax then
        if s.probsum < (1 - target) * s.old_probsum then .ok s
        else
          match selectIdx s.prob (s.probsum * target) with
          | none => .ok s
          | some sel =>
            if sel.all (fun i => decide (i < s.oldk.length)) then
              let leadk := sel.map (fun i => s.oldk.getD i [])
              let newk := expand nsnps leadk
              let zstates := s.zstates ++ newk
              let posterior := score zstates
              let prob := lastSlice posterior newk.length
              loop score nsnps target cmax fuel (norm + 1)
                ⟨zstates, newk, prob, prob.sum, s.probsum, s.calls + 1⟩
            else .error .indexError
      else .ok s := rfl

theorem loop_ge (score : Scorer) (nsnps : Nat) (target : ℚ) (cmax fuel norm : Nat)
    (s : St) (h : cmax ≤ norm) : loop score nsnps target cmax fuel norm s = .ok s := by
  cases fuel with
  | zero => rfl
  | succ f => rw [loop_succ, if_neg (not_lt.mpr h)]

/-- C2: at the top of any iteration with `norm < cmax`, if the newest level's
score mass `probsum` is strictly below `(1 - target) * old_probsum`, the loop
stops at once, returning the state unchanged — same accumulated collection,
same Scorer-call count (so no further Scorer call is made). -/
theorem claim2 (score : Scorer) (nsnps : Nat) (target : ℚ) (cmax fuel norm : Nat) (s : St)
    (h1 : norm < cmax) (h2 : s.probsum < (1 - target) * s.old_probsum) :
    loop score nsnps target cmax fuel norm s = .ok s := by
  cases fuel with
  | zero => rfl
  | succ f => rw [loop_succ, if_pos h1, if_pos h2]

/-- Witness for C2 at a state with `probsum = 0`, `old_probsum = 1`,
`target = 1/2`: the stopping check `0 < (1 - 1/2) * 1` fires. -/
theorem claim2_witness :
    ((1 : Nat) < 2 ∧ (0 : ℚ) < (1 - 1/2) * 1)
    ∧ loop (fun zs => zs.map (fun _ => 0)) 1 (1/2) 2 5 1 ⟨[[]], [], [], 0, 1, 1⟩ =
        .ok ⟨[[]], [], [], 0, 1, 1⟩ :=
  ⟨⟨by decide, by decide⟩,
   claim2 (fun zs => zs.map (fun _ => 0)) 1 (1/2) 2 5 1 ⟨[[]], [], [], 0, 1, 1⟩
     (by decide) (by decide)⟩

theorem loop_emptySel (score : Scorer) (nsnps : Nat) (target : ℚ) (cmax fuel norm : Nat)
    (s : St) (h1 : norm < cmax) (h2 : ¬ s.probsum < (1 - target) * s.old_probsum)
    (h3 : selectIdx s.prob (s.probsum * target) = none) :
    loop score nsnps target cmax fuel norm s = .ok s := by
  cases fuel with
  | zero => rfl
  | succ f => rw [loop_succ, if_pos h1, if_neg h2, h3]

/-- C4 (amended): if no prefix of the cumulative sums exceeds
`targ = probsum * target`, the loop stops the whole search at once, returning
the collection built so far, with no error; the concrete degenerate scenario
needs the stub to score the level-1 states 0 as well: with `N = 4`, `cmax = 3`
and a stub scoring every state 0, `create` ends at level 1 with exactly the
1 + 4 = 5 states of levels 0 and 1 (whatever `target` is). -/
theorem claim4 :
    (∀ (score : Scorer) (nsnps : Nat) (target : ℚ) (cmax fuel norm : Nat) (s : St),
        norm < cmax → ¬ s.probsum < (1 - target) * s.old_probsum →
        selectIdx s.prob (s.probsum * target) = none →
        loop score nsnps target cmax fuel norm s = .ok s)
    ∧ (∀ target : ℚ, create (fun zs => zs.map (fun _ => 0)) 4 3 target false =
        .ok ([[], [0], [1], [2], [3]], 1)) := by
  refine ⟨loop_emptySel, ?_⟩
  intro target
  show (loop (fun zs => zs.map (fun _ => 0)) 4 target 3 2 1
      ⟨[[], [0], [1], [2], [3]], [[0], [1], [2], [3]], [0, 0, 0, 0], 0, 0, 1⟩).map
        (fun s => (s.zstates, s.calls)) = .ok ([[], [0], [1], [2], [3]], 1)
  rw [loop_emptySel (fun zs => zs.map (fun _ => 0)) 4 target 3 2 1
    ⟨[[], [0], [1], [2], [3]], [[0], [1], [2], [3]], [0, 0, 0, 0], 0, 0, 1⟩
    (by decide) (by simp) (by rw [show ((⟨[[], [0], [1], [2], [3]], [[0], [1], [2], [3]],
      [0, 0, 0, 0], 0, 0, 1⟩ : St).probsum * target) = 0 from zero_mul target]; decide)]
  rfl

/-- C4 counterexample: with `N = 4`, `cmax = 3` and a Scorer stub returning
score 0 for every state beyond level 1 (levels 0 and 1 score 1), the search
does not terminate at level 1 with 5 states: it expands and scores level 2 and
returns 11 states after 2 Scorer calls. -/
theorem claim4_counterexample :
    create (fun zs => zs.map (fun s => if s.length ≤ 1 then (1 : ℚ) else 0)) 4 3 (9/10) false =
      .ok ([[], [0], [1], [2], [3], [0, 1], [0, 2], [0, 3], [1, 2], [1, 3], [2, 3]], 2) := by
  decide

/-- Witness for C4: the empty-selection stop at a concrete state, and the
all-zero-stub scenario at `target = 1/2`. -/
theorem claim4_witness :
    ((1 : Nat) < 2 ∧ ¬ (0 : ℚ) < (1 - 1/2) * 0 ∧ selectIdx [] ((0 : ℚ) * (1/2)) = none)
    ∧ loop (fun zs => zs.map (fun _ => 0)) 1 (1/2) 2 7 1 ⟨[[]], [], [], 0, 0, 1⟩ =
        .ok ⟨[[]], [], [], 0, 0, 1⟩
    ∧ create (fun zs => zs.map (fun _ => 0)) 4 3 (1/2) false =
        .ok ([[], [0], [1], [2], [3]], 1) :=
  ⟨⟨by decide, by decide, by decide⟩,
   claim4.1 (fun zs => zs.map (fun _ => 0)) 1 (1/2) 2 7 1 ⟨[[]], [], [], 0, 0, 1⟩
     (by decide) (by decide) (by decide),
   claim4.2 (1/2)⟩

theorem mem_lastSlice {posterior : List ℚ} {m : Nat} {q : ℚ}
    (h : q ∈ lastSlice posterior m) : q ∈ posterior := by
  unfold lastSlice at h
  by_cases hm : m = 0
  · rwa [if_pos hm] at h
  · rw [if_neg hm] at h
    exact List.mem_of_mem_drop h

theorem selectIdx_total_none {prob : List ℚ} (h : ∀ q ∈ prob, 0 ≤ q) :
    selectIdx prob prob.sum = none := by
  have hbound : ∀ c ∈ cumsum (sortedScores prob), c ≤ prob.sum := by
    intro c hc
    rcases mem_cumsum hc with ⟨n, rfl⟩
    have hnn : ∀ q ∈ sortedScores prob, 0 ≤ q := fun q hq =>
      h q ((sortedScores_perm prob).mem_iff.mp hq)
    calc ((sortedScores prob).take (n + 1)).sum
        ≤ (sortedScores prob).sum := take_sum_le hnn _
      _ = prob.sum := (sortedScores_perm prob).sum_eq
  unfold selectIdx
  rw [firstExceed_none hbound]

/-- C10: with `target = 1`, `cmax > 1` and a Scorer returning nonnegative
scores, under exact arithmetic no prefix of the decreasing-sorted level-1
scores strictly exceeds `targ = probsum * 1`, so the empty-selection break
fires in the first iteration and `create` returns exactly levels 0 and 1
(`1 + N` states, one Scorer call), whatever the score values. -/
theorem claim10 (score : Scorer) (nsnps cmax : Nat) (_h1 : 1 ≤ nsnps) (h2 : 1 < cmax)
    (hpos : ∀ q ∈ score (([] : State) :: (List.range nsnps).map (fun i => [i])), 0 ≤ q) :
    create score nsnps cmax 1 false =
      .ok (([] : State) :: (List.range nsnps).map (fun i => [i]), 1) := by
  obtain ⟨c, rfl⟩ : ∃ c, cmax = c + 2 := ⟨cmax - 2, by omega⟩
  have hc21 : c + 2 - 1 = c + 1 := by omega
  simp only [create, Bool.false_eq_true, if_false, hc21]
  rw [if_pos (by omega : 1 < c + 2)]
  rw [loop_succ, if_pos (by omega : 1 < c + 2)]
  have hprn : ∀ q ∈ lastSlice (score (([] : State) :: (List.range nsnps).map (fun i => [i])))
      ((List.range nsnps).map (fun i => [i])).length, 0 ≤ q :=
    fun q hq => hpos q (mem_lastSlice hq)
  have hps := List.sum_nonneg hprn
  rw [if_neg (by simp only [sub_self, zero_mul]; exact not_lt.mpr hps), mul_one,
    selectIdx_total_none hprn]
  rfl

/-- Witness for C10 at `N = 1`, `cmax = 2` with the constant-1 scorer. -/
theorem claim10_witness :
    ((1 : Nat) ≤ 1 ∧ (1 : Nat) < 2
      ∧ ∀ q ∈ (fun zs => zs.map (fun _ => (1 : ℚ)))
          (([] : State) :: (List.range 1).map (fun i => [i])), 0 ≤ q)
    ∧ create (fun zs => zs.map (fun _ => (1 : ℚ))) 1 2 1 false = .ok ([[], [0]], 1) :=
  ⟨⟨by decide, by decide, by decide⟩,
   claim10 (fun zs => zs.map (fun _ => (1 : ℚ))) 1 2 (by decide) (by decide) (by decide)⟩

theorem flat_length : ∀ L : List (List State), (flat L).length = (L.map List.length).sum
  | [] => rfl
  | l :: ls => by rw [flat, List.length_append, flat_length ls]; simp

theorem loop_levels (score : Scorer) (nsnps : Nat) (target : ℚ) (cmax : Nat) :
    ∀ (fuel norm : Nat) (s s' : St),
      loop score nsnps target cmax fuel norm s = .ok s' →
      ∃ L : List (List State), s'.zstates = s.zstates ++ flat L := by
  intro fuel
  induction fuel with
  | zero =>
    intro norm s s' h
    rw [loop_zero] at h
    simp only [Except.ok.injEq] at h
    subst h
    exact ⟨[], by simp [flat]⟩
  | succ f ih =>
    intro norm s s' h
    rw [loop_succ] at h
    by_cases h1 : norm < cmax
    · rw [if_pos h1] at h
      by_cases h2 : s.probsum < (1 - target) * s.old_probsum
      · rw [if_pos h2] at h
        simp only [Except.ok.injEq] at h
        subst h
        exact ⟨[], by simp [flat]⟩
      · rw [if_neg h2] at h
        cases hsel : selectIdx s.prob (s.probsum * target) with
        | none =>
          rw [hsel] at h
          simp only [Except.ok.injEq] at h
          subst h
          exact ⟨[], by simp [flat]⟩
        | some sel =>
          rw [hsel] at h
          dsimp only at h
          by_cases hall : sel.all (fun i => decide (i < s.oldk.length)) = true
          · rw [if_pos hall] at h
            rcases ih (norm + 1) _ s' h with ⟨L, hL⟩
            refine ⟨expand nsnps (sel.map (fun i => s.oldk.getD i [])) :: L, ?_⟩
            rw [hL, flat]
            simp [List.append_assoc]
          · rw [if_neg hall] at h
            exact absurd h (by simp)
    · rw [if_neg h1] at h
      simp only [Except.ok.injEq] at h
      subst h
      exact ⟨[], by simp [flat]⟩

/-- C8: the collection is append-only across the search loop: whenever the
loop returns, the final collection is the entry collection followed by the
concatenation of the newly generated levels, its length is the entry length
plus the sum of the level sizes, and it never shrinks. -/
theorem claim8 (score : Scorer) (nsnps : Nat) (target : ℚ) (cmax fuel norm : Nat)
    (s s' : St) (h : loop score nsnps target cmax fuel norm s = .ok s') :
    ∃ L : List (List State),
      s'.zstates = s.zstates ++ flat L
      ∧ s'.zstates.length = s.zstates.length + (L.map List.length).sum
      ∧ s.zstates.length ≤ s'.zstates.length := by
  rcases loop_levels score nsnps target cmax fuel norm s s' h with ⟨L, hL⟩
  refine ⟨L, hL, ?_, ?_⟩
  · rw [hL, List.length_append, flat_length]
  · rw [hL, List.length_append]
    omega

/-- Witness for C8 at fuel 0: the loop returns its input state, with the empty
list of new levels. -/
theorem claim8_witness :
    ∃ L : List (List State),
      (⟨[[]], [], [], 0, 0, 1⟩ : St).zstates = (⟨[[]], [], [], 0, 0, 1⟩ : St).zstates ++ flat L
      ∧ (⟨[[]], [], [], 0, 0, 1⟩ : St).zstates.length =
          (⟨[[]], [], [], 0, 0, 1⟩ : St).zstates.length + (L.map List.length).sum
      ∧ (⟨[[]], [], [], 0, 0, 1⟩ : St).zstates.length ≤
          (⟨[[]], [], [], 0, 0, 1⟩ : St).zstates.length :=
  claim8 (fun zs => zs.map (fun _ => 0)) 1 0 1 0 1
    ⟨[[]], [], [], 0, 0, 1⟩ ⟨[[]], [], [], 0, 0, 1⟩ rfl

/-- C5: with `is_covariate` false, `N ≥ 1` and `cmax ≥ 1`, any collection
`create` returns starts with level 0 (the single empty state) followed by
level 1 (the `N` distinct singletons `[0], ..., [N-1]`, in that order); these
`1 + N` states are pairwise distinct; and with `cmax = 1` the result is
exactly these states with zero Scorer calls. -/
theorem claim5 (score : Scorer) (nsnps cmax : Nat) (target : ℚ)
    (_hn : 1 ≤ nsnps) (hc : 1 ≤ cmax) :
    (∀ zs calls, create score nsnps cmax target false = .ok (zs, calls) →
      zs.take (nsnps + 1) = ([] : State) :: (List.range nsnps).map (fun i => [i]))
    ∧ (([] : State) :: (List.range nsnps).map (fun i => [i])).Nodup
    ∧ (cmax = 1 →
        create score nsnps cmax target false =
          .ok (([] : State) :: (List.range nsnps).map (fun i => [i]), 0)) := by
  have hlen : (([] : State) :: (List.range nsnps).map (fun i => [i])).length = nsnps + 1 := by
    simp [Nat.add_comm]
  refine ⟨?_, ?_, ?_⟩
  · intro zs calls h
    by_cases hcm : 1 < cmax
    · rw [create, if_neg Bool.false_ne_true] at h
      simp only [hcm, if_true, if_pos hcm] at h
      cases hloop : loop score nsnps target cmax (cmax - 1) 1
          ⟨([] : State) :: (List.range nsnps).map (fun i => [i]),
           (List.range nsnps).map (fun i => [i]),
           lastSlice (score (([] : State) :: (List.range nsnps).map (fun i => [i])))
             ((List.range nsnps).map (fun i => [i])).length,
           (lastSlice (score (([] : State) :: (List.range nsnps).map (fun i => [i])))
             ((List.range nsnps).map (fun i => [i])).length).sum,
           (score (([] : State) :: (List.range nsnps).map (fun i => [i]))).headD 0, 1⟩ with
      | error e => rw [hloop] at h; exact absurd h (by simp [Except.map])
      | ok s' =>
        rw [hloop] at h
        simp only [Except.map, Except.ok.injEq, Prod.mk.injEq] at h
        rcases loop_levels score nsnps target cmax _ _ _ _ hloop with ⟨L, hL⟩
        rw [← h.1, hL]
        rw [show nsnps + 1 = (([] : State) :: (List.range nsnps).map (fun i => [i])).length
          from hlen.symm]
        simp
    · rw [create, if_neg Bool.false_ne_true, if_neg hcm] at h
      simp only [Except.ok.injEq, Prod.mk.injEq] at h
      rw [← h.1, List.take_of_length_le (le_of_eq hlen)]
  · refine List.nodup_cons.mpr ⟨by simp, ?_⟩
    refine List.Nodup.map ?_ (List.nodup_range nsnps)
    intro a b hab
    simpa using hab
  · intro h1
    subst h1
    rfl

/-- Witness for C5 at `N = 1`, `cmax = 1`. -/
theorem claim5_witness :
    ((1 : Nat) ≤ 1 ∧ (1 : Nat) ≤ 1)
    ∧ ((∀ zs calls, create (fun zs => zs.map (fun _ => (0 : ℚ))) 1 1 (1/2) false =
          .ok (zs, calls) →
        zs.take (1 + 1) = ([] : State) :: (List.range 1).map (fun i => [i]))
    ∧ (([] : State) :: (List.range 1).map (fun i => [i])).Nodup
    ∧ ((1 : Nat) = 1 →
        create (fun zs => zs.map (fun _ => (0 : ℚ))) 1 1 (1/2) false =
          .ok (([] : State) :: (List.range 1).map (fun i => [i]), 0))) :=
  ⟨⟨le_rfl, le_rfl⟩,
   claim5 (fun zs => zs.map (fun _ => (0 : ℚ))) 1 1 (1/2) le_rfl le_rfl⟩

/-- C7 counterexample: at the invalid configuration `cmax = 0 < 1` (valid
`N = 3`), `create` raises no configuration error: it returns the
initialization collection normally, with zero Scorer calls. -/
theorem claim7_counterexample :
    create (fun zs => zs.map (fun _ => (0 : ℚ))) 3 0 (1/2) false =
      .ok ([[], [0], [1], [2]], 0) := by
  decide

/-- C7 (amended): `create` performs no configuration validation: with
`cmax < 1` (and `is_covariate` false) it silently returns the `1 + N`
initialization states with no Scorer call, and with `target` outside `(0, 1]`
(e.g. `target = 2`) it calls the Scorer and terminates normally via the
selection rule instead of failing fast with a configuration error. -/
theorem claim7_amended :
    (∀ (score : Scorer) (nsnps : Nat) (target : ℚ),
        create score nsnps 0 target false =
          .ok (([] : State) :: (List.range nsnps).map (fun i => [i]), 0))
    ∧ create (fun zs => zs.map (fun _ => (1 : ℚ))) 1 2 2 false = .ok ([[], [0]], 1) :=
  ⟨fun _ _ _ => rfl, by decide⟩

theorem selectIdx_props {prob : List ℚ} {targ : ℚ} {sel : List Nat}
    (h : selectIdx prob targ = some sel) :
    1 ≤ sel.length ∧ ∀ i ∈ sel, i < prob.length := by
  rcases selectIdx_some h with ⟨idx, hfe, rfl⟩
  rcases firstExceed_some hfe with ⟨hlt, -, -⟩
  have hidx : idx < prob.length := by
    rw [cumsum_length, sortedScores_length] at hlt
    exact hlt
  constructor
  · rw [List.length_insertionSort, List.length_take, argsortDesc_length]
    omega
  · intro i hi
    have hi' := (List.perm_insertionSort _ _).mem_iff.mp hi
    exact mem_argsortDesc (List.mem_of_mem_take hi')

theorem expand_ne_nil {nsnps m : Nat} {leaders : List State}
    (hgood : GoodStates nsnps m leaders) (hne : leaders ≠ [])
    (hm : m < nsnps) : expand nsnps leaders ≠ [] := by
  rcases List.exists_mem_of_ne_nil leaders hne with ⟨l, hl⟩
  rcases hgood l hl with ⟨hsort, hbound, hlen⟩
  have hex : ∃ item, item < nsnps ∧ item ∉ l := by
    by_contra hcon
    push_neg at hcon
    have hsub : List.range nsnps ⊆ l := fun x hx => hcon x (List.mem_range.mp hx)
    have hsp := (List.nodup_range nsnps).subperm hsub
    have hle := hsp.length_le
    rw [List.length_range, hlen] at hle
    omega
  rcases hex with ⟨item, hitem, hni⟩
  intro hnil
  have hmem : List.orderedInsert (· ≤ ·) item l ∈ expand nsnps leaders :=
    (mem_expand nsnps leaders _).mpr ⟨l, hl, item, hitem, hni, rfl⟩
  rw [hnil] at hmem
  exact absurd hmem (List.not_mem_nil _)

theorem loop_ok_of_inv (score : Scorer) (nsnps : Nat) (target : ℚ) (cmax : Nat)
    (hlen : ∀ zs, (score zs).length = zs.length) (hcm : cmax ≤ nsnps + 1) :
    ∀ (fuel norm : Nat) (s : St),
      s.prob.length = s.oldk.length → GoodStates nsnps norm s.oldk →
      ∃ s', loop score nsnps target cmax fuel norm s = .ok s' := by
  intro fuel
  induction fuel with
  | zero => intro norm s _ _; exact ⟨s, rfl⟩
  | succ f ih =>
    intro norm s hlp hgs
    rw [loop_succ]
    by_cases h1 : norm < cmax
    case neg => rw [if_neg h1]; exact ⟨s, rfl⟩
    rw [if_pos h1]
    by_cases h2 : s.probsum < (1 - target) * s.old_probsum
    · rw [if_pos h2]; exact ⟨s, rfl⟩
    rw [if_neg h2]
    split
    · exact ⟨s, rfl⟩
    · rename_i sel hsel
      rcases selectIdx_props hsel with ⟨hsel1, hselmem⟩
      have hmem : ∀ i ∈ sel, i < s.oldk.length := by
        intro i hi
        rw [← hlp]
        exact hselmem i hi
      have hall : sel.all (fun i => decide (i < s.oldk.length)) = true := by
        rw [List.all_eq_true]
        intro i hi
        exact decide_eq_true (hmem i hi)
      rw [if_pos hall]
      have hlead_good : GoodStates nsnps norm (sel.map (fun i => s.oldk.getD i [])) := by
        intro l hl
        rcases List.mem_map.mp hl with ⟨i, hi, rfl⟩
        have hilt := hmem i hi
        have hmm : s.oldk.getD i [] ∈ s.oldk := by
          rw [List.getD_eq_getElem _ _ hilt]
          exact List.getElem_mem _
        exact hgs _ hmm
      have hnew_good : GoodStates nsnps (norm + 1)
          (expand nsnps (sel.map (fun i => s.oldk.getD i []))) := expand_good hlead_good
      by_cases hnorm : norm < nsnps
      · have hlead_ne : sel.map (fun i => s.oldk.getD i []) ≠ [] := by
          intro hnil
          have hh := congrArg List.length hnil
          rw [List.length_map, List.length_nil] at hh
          omega
        have hnewk_ne : expand nsnps (sel.map (fun i => s.oldk.getD i [])) ≠ [] :=
          expand_ne_nil hlead_good hlead_ne hnorm
        refine ih (norm + 1) _ ?_ hnew_good
        show (lastSlice (score (s.zstates ++ expand nsnps (sel.map (fun i => s.oldk.getD i []))))
            (expand nsnps (sel.map (fun i => s.oldk.getD i []))).length).length
          = (expand nsnps (sel.map (fun i => s.oldk.getD i []))).length
        rw [lastSlice, if_neg (by simpa using hnewk_ne), List.length_drop, hlen,
          List.length_append]
        omega
      · refine ⟨_, loop_ge score nsnps target cmax f (norm + 1) _ (by omega)⟩

theorem loop_empty_oldk_error (score : Scorer) (nsnps : Nat) (target : ℚ)
    (cmax fuel norm : Nat) (s : St) (sel : List Nat)
    (h1 : norm < cmax) (h2 : ¬ s.probsum < (1 - target) * s.old_probsum)
    (h3 : selectIdx s.prob (s.probsum * target) = some sel) (h4 : s.oldk = []) :
    loop score nsnps target cmax (fuel + 1) norm s = .error .indexError := by
  rw [loop_succ, if_pos h1, if_neg h2]
  split
  · rename_i heq
    rw [h3] at heq
    exact absurd heq (by simp)
  · rename_i sel' heq
    rw [h3] at heq
    simp only [Option.some.injEq] at heq
    subst heq
    rw [if_neg ?hne]
    case hne =>
      intro hcon
      rw [List.all_eq_true] at hcon
      rcases selectIdx_props h3 with ⟨hlen1, -⟩
      have hne : sel ≠ [] := by
        intro hnil
        rw [hnil] at hlen1
        simp at hlen1
      rcases List.exists_mem_of_ne_nil sel hne with ⟨i, hi⟩
      have hd := hcon i hi
      rw [h4] at hd
      simp at hd

/-- C9: for `1 ≤ cmax ≤ N + 1` and a Scorer returning one score per input
state, every leader-extraction index stays in bounds and `create` returns a
collection; but when the previous level is empty (the norm-`(N + 1)` level,
whose emptiness makes the slice `posterior[-0:]` rebind `prob` to the whole
collection's scores) and the stopping rule does not fire while the selection
is nonempty, the leader extraction `oldk[sel[i]]` indexes out of bounds and
the loop raises the index error — concretely, at `N = 1`, `cmax = 3 = N + 2`,
unit scores and `target = 1/2`, `create` raises it instead of returning. -/
theorem claim9 :
    (∀ (score : Scorer) (nsnps cmax : Nat) (target : ℚ),
        1 ≤ cmax → cmax ≤ nsnps + 1 →
        (∀ zs, (score zs).length = zs.length) →
        ∃ out, create score nsnps cmax target false = .ok out)
    ∧ (∀ (score : Scorer) (nsnps : Nat) (target : ℚ)
          (cmax fuel norm : Nat) (s : St) (sel : List Nat),
        norm < cmax → ¬ s.probsum < (1 - target) * s.old_probsum →
        selectIdx s.prob (s.probsum * target) = some sel → s.oldk = [] →
        loop score nsnps target cmax (fuel + 1) norm s = .error .indexError)
    ∧ create (fun zs => zs.map (fun _ => (1 : ℚ))) 1 3 (1/2) false = .error .indexError := by
  refine ⟨?_, loop_empty_oldk_error, by decide⟩
  · intro score nsnps cmax target h1 h2 hlen
    by_cases hcm : 1 < cmax
    · simp only [create, Bool.false_eq_true, if_false]
      rw [if_pos hcm]
      have hn1 : 1 ≤ nsnps := by omega
      have hst1 : (lastSlice (score (([] : State) :: (List.range nsnps).map (fun i => [i])))
          ((List.range nsnps).map (fun i => [i])).length).length
          = ((List.range nsnps).map (fun i => [i])).length := by
        rw [lastSlice, if_neg (by simp; omega), List.length_drop, hlen]
        simp
      have hgs0 : GoodStates nsnps 1 ((List.range nsnps).map (fun i => [i])) := by
        intro l hl
        rcases List.mem_map.mp hl with ⟨i, hi, rfl⟩
        exact ⟨List.sorted_singleton i, by simpa using List.mem_range.mp hi, rfl⟩
      rcases loop_ok_of_inv score nsnps target cmax hlen h2 (cmax - 1) 1
          ⟨([] : State) :: (List.range nsnps).map (fun i => [i]),
           (List.range nsnps).map (fun i => [i]),
           lastSlice (score (([] : State) :: (List.range nsnps).map (fun i => [i])))
             ((List.range nsnps).map (fun i => [i])).length,
           (lastSlice (score (([] : State) :: (List.range nsnps).map (fun i => [i])))
             ((List.range nsnps).map (fun i => [i])).length).sum,
           (score (([] : State) :: (List.range nsnps).map (fun i => [i]))).headD 0, 1⟩
          hst1 hgs0 with ⟨s', hs'⟩
      exact ⟨(s'.zstates, s'.calls), by rw [hs']; rfl⟩
    · refine ⟨(([] : State) :: (List.range nsnps).map (fun i => [i]), 0), ?_⟩
      simp only [create, Bool.false_eq_true, if_false]
      rw [if_neg hcm]

/-- Witness for C9: the in-bounds branch at `N = 1`, `cmax = 1` with the
zero scorer, plus the concrete out-of-bounds run. -/
theorem claim9_witness :
    ((1 : Nat) ≤ 1 ∧ (1 : Nat) ≤ 1 + 1
      ∧ ∀ zs : List State, (zs.map (fun _ => (0 : ℚ))).length = zs.length)
    ∧ (∃ out, create (fun zs => zs.map (fun _ => (0 : ℚ))) 1 1 (1/2) false = .ok out)
    ∧ create (fun zs => zs.map (fun _ => (1 : ℚ))) 1 3 (1/2) false = .error .indexError :=
  ⟨⟨le_rfl, by omega, fun zs => by simp⟩,
   claim9.1 (fun zs => zs.map (fun _ => (0 : ℚ))) 1 1 (1/2) le_rfl (by omega)
     (fun zs => by simp),
   claim9.2.2⟩

end BLore
